import Mathlib

/-!
Verification development for the DeobfuscationSort post-processing script
(src/main.py).  The script's string pipeline is embedded shallowly: Python
string operations are modelled at the ASCII level on `List Char` / `String`,
fallible or unbounded loops are given explicit fuel that provably suffices,
and the per-file processing loop is modelled as a fold over per-file
outcomes.  All definitions are executable so that concrete runs of the
script can be evaluated inside proofs.
-/

namespace DeobSort

/-! ## Python string primitives (ASCII model) -/

/-- Characters treated as whitespace by Python's no-argument strip. -/
def pyWsChars : List Char := [' ', '\t', '\n', '\r', Char.ofNat 11, Char.ofNat 12]

def trimLeftBy (p : Char → Bool) (l : List Char) : List Char := l.dropWhile p

def trimRightBy (p : Char → Bool) (l : List Char) : List Char :=
  (l.reverse.dropWhile p).reverse

/-- Python "s.strip(chars)" restricted to a predicate on characters. -/
def pyStripBy (p : Char → Bool) (s : String) : String :=
  ⟨trimRightBy p (trimLeftBy p s.data)⟩

/-- Python "s.strip()" (no argument: whitespace). -/
def pyStripWs (s : String) : String := pyStripBy (fun c => pyWsChars.contains c) s

/-- Python "s.strip(cs)". -/
def pyStripChars (s : String) (cs : List Char) : String :=
  pyStripBy (fun c => cs.contains c) s

/-- Python "s.rstrip(cs)". -/
def pyRStripChars (s : String) (cs : List Char) : String :=
  ⟨trimRightBy (fun c => cs.contains c) s.data⟩

/-- Core of Python "s.replace(k, v)": replace non-overlapping occurrences of
`k` left to right.  The fuel is the length of `s`, which suffices because each
step consumes at least one character of `s`.  (Python's behaviour for an empty
`k` — inserting `v` everywhere — is not modelled; the script never calls
`replace` with an empty pattern.) -/
def pyReplaceCore (k v : List Char) : Nat → List Char → List Char
  | 0, s => s
  | _ + 1, [] => []
  | fuel + 1, a :: as =>
    if k ≠ [] ∧ k.isPrefixOf (a :: as) then
      v ++ pyReplaceCore k v fuel (List.drop k.length (a :: as))
    else
      a :: pyReplaceCore k v fuel as

def pyReplaceL (s k v : List Char) : List Char := pyReplaceCore k v s.length s

/-- Python "s.replace(k, v)". -/
def pyReplaceS (s k v : String) : String := ⟨pyReplaceL s.data k.data v.data⟩

/-- ASCII word character, i.e. the regex class backslash-w. -/
def isWordChar (c : Char) : Bool := c.isAlphanum || c == '_'

def pyLower (s : String) : String := ⟨s.data.map Char.toLower⟩

def pyUpper (s : String) : String := ⟨s.data.map Char.toUpper⟩

/-- Python "s.title()" at the ASCII level: a letter is uppercased after a
non-letter and lowercased after a letter. -/
def pyTitleGo : List Char → Bool → List Char
  | [], _ => []
  | c :: cs, prevAlpha =>
    (if c.isAlpha then (if prevAlpha then c.toLower else c.toUpper) else c) ::
      pyTitleGo cs c.isAlpha

def pyTitle (s : String) : String := ⟨pyTitleGo s.data false⟩

/-- Python "s.rjust(w, c)". -/
def pyRJust (s : String) (w : Nat) (c : Char) : String :=
  if w ≤ s.data.length then s else ⟨List.replicate (w - s.data.length) c ++ s.data⟩

def digitChar (n : Nat) : Char := Char.ofNat (48 + n)

/-- Decimal digits of `n`; fuel `n + 1` always suffices. -/
def natDigits : Nat → Nat → List Char
  | 0, _ => []
  | fuel + 1, n =>
    if n < 10 then [digitChar n] else natDigits fuel (n / 10) ++ [digitChar (n % 10)]

/-- Python "str(n)" for a natural number. -/
def pyStr (n : Nat) : String := ⟨natDigits (n + 1) n⟩

/-- The sublist of `l` from index `a` (inclusive) to `b` (exclusive), like a
Python slice with non-negative clamped bounds. -/
def extractL (l : List Char) (a b : Nat) : List Char := (l.take b).drop a

/-- Character test at an index; false out of range. -/
def isCh (s : List Char) (i : Nat) (c : Char) : Bool :=
  match s[i]? with
  | some d => d == c
  | none => false

/-- Smallest `k` with `start ≤ k < start + fuel` and `p k`. -/
def leastBelow (p : Nat → Bool) : Nat → Nat → Option Nat
  | 0, _ => none
  | fuel + 1, k => if p k then some k else leastBelow p fuel (k + 1)

/-- Greatest `k < n` with `p k`. -/
def greatestBelow (p : Nat → Bool) : Nat → Option Nat
  | 0 => none
  | n + 1 => if p n then some n else greatestBelow p n

/-- `pre` is a prefix of `s` (kernel-reducible replacement for
`String.startsWith`). -/
def strStartsWith (s pre : String) : Bool := pre.data.isPrefixOf s.data

/-- `suf` is a suffix of `s`. -/
def strEndsWith (s suf : String) : Bool := suf.data.isSuffixOf s.data

/-- Split on a single character, Python `s.split(c)` (an empty string yields
one empty field). -/
def splitOnCharL (c : Char) : List Char → List (List Char)
  | [] => [[]]
  | a :: as =>
    match splitOnCharL c as with
    | [] => [[a]]
    | h :: t => if a = c then [] :: h :: t else (a :: h) :: t

def pySplitChar (s : String) (c : Char) : List String :=
  (splitOnCharL c s.data).map String.mk

/-- Join with a separator (kernel-reducible replacement for
`String.intercalate`). -/
def strIntercalate (sep : String) : List String → String
  | [] => ""
  | x :: xs => xs.foldl (fun a y => a ++ sep ++ y) x

/-- Concatenation of a list of strings. -/
def strJoin (l : List String) : String := l.foldl (fun a y => a ++ y) ""

/-! ## POSIX path helpers (`os.path` on a posix system) -/

/-- `posixpath.normpath`.  Collapses repeated separators, removes interior
single-dot components, resolves `x/..` pairs, and preserves exactly two
leading slashes when the input starts with exactly two. -/
def posixNormpath (p : String) : String :=
  if p = "" then "." else
  let initialSlashes : Nat :=
    if strStartsWith p "/" then
      (if strStartsWith p "//" ∧ ¬ strStartsWith p "///" then 2 else 1)
    else 0
  let comps := pySplitChar p '/'
  let newComps := comps.foldl
    (fun acc comp =>
      if comp = "" ∨ comp = "." then acc
      else if comp ≠ ".." ∨ (initialSlashes = 0 ∧ acc = []) ∨
              (acc ≠ [] ∧ acc.getLast? = some "..") then acc ++ [comp]
      else if acc ≠ [] then acc.dropLast
      else acc)
    []
  let path := strIntercalate "/" newComps
  let path := (⟨List.replicate initialSlashes '/'⟩ : String) ++ path
  if path = "" then "." else path

/-- Index of the last occurrence of `c` in `l`, as an `Int` (`-1` when absent),
matching Python's `str.rfind`. -/
def pyRFindChar (l : List Char) (c : Char) : Int :=
  match greatestBelow (fun i => isCh l i c) l.length with
  | some i => (i : Int)
  | none => -1

/-- `posixpath.splitext`: split off the extension at the last dot of the last
path component; a component consisting only of leading dots has no
extension. -/
def posixSplitext (p : String) : String × String :=
  let sepIdx := pyRFindChar p.data '/'
  let dotIdx := pyRFindChar p.data '.'
  if sepIdx < dotIdx then
    let start := (sepIdx + 1).toNat
    let dotN := dotIdx.toNat
    if (extractL p.data start dotN).any (fun c => c != '.') then
      (⟨p.data.take dotN⟩, ⟨p.data.drop dotN⟩)
    else (p, "")
  else (p, "")

/-- `posixpath.join a ps` (an absolute later part resets the result). -/
def posixJoin (base : String) (parts : List String) : String :=
  parts.foldl
    (fun path b =>
      if strStartsWith b "/" then b
      else if path = "" ∨ strEndsWith path "/" then path ++ b
      else path ++ "/" ++ b)
    base

/-! ## Specifier substitution engine (`path_subst`, main.py lines 417-455)

Mapping entries are `(key, value, optional deprecation message)`; entries
without a message model the plain 2-tuples of the source (the
`deprecation_support` wrapper pads those with `None`). -/

structure MapEntry where
  key : String
  value : String
  msg : Option String := none
deriving DecidableEq, Repr

/-- Lexicographic code-point comparison of character lists, matching Python's
ascending string order. -/
def charListLe : List Char → List Char → Bool
  | [], _ => true
  | _ :: _, [] => false
  | a :: as, b :: bs => if a = b then charListLe as bs else decide (a.val < b.val)

/-- Stable insertion used by the stable sort below: `x` is placed before the
first element `y` with `le x y`, so elements that compare equal keep their
original relative order (Python's `list.sort` is stable). -/
def stableInsert (le : MapEntry → MapEntry → Bool) (x : MapEntry) :
    List MapEntry → List MapEntry
  | [] => [x]
  | y :: ys => if le x y then x :: y :: ys else y :: stableInsert le x ys

/-- Stable insertion sort, modelling Python's stable `list.sort`. -/
def stableSort (le : MapEntry → MapEntry → Bool) (l : List MapEntry) :
    List MapEntry :=
  l.foldr (stableInsert le) []

/-- The two sorting passes of `path_subst`: ascending by the literal text of
the specifier, then (stably) descending by literal length, exactly as in the
source (`mapping.sort(key=lambda t: t[0]); mapping.sort(key=lambda t: len(t[0]), reverse=True)`). -/
def sortMapping (mapping : List MapEntry) : List MapEntry :=
  stableSort (fun a b => decide (b.key.length ≤ a.key.length))
    (stableSort (fun a b => charListLe a.key.data b.key.data) mapping)

/-- Python `path.startswith(key, n)`. -/
def startswithAt (p : List Char) (key : List Char) (n : Nat) : Bool :=
  key.isPrefixOf (p.drop n)

/-- First entry of `mapping` whose key matches at position `n` of `p`. -/
def findMatch (mapping : List MapEntry) (p : List Char) (n : Nat) :
    Option MapEntry :=
  mapping.find? (fun e => startswithAt p e.key.data n)

/-- Scan loop of `path_subst`.  The fuel equals the number of remaining loop
iterations; `p.length + 1` suffices because every iteration advances the scan
position by at least one (all specifier literals are non-empty). -/
def pathSubstAux (mapping : List MapEntry) (p : List Char) :
    Nat → Nat → List String
  | 0, _ => []
  | fuel + 1, n =>
    if n < p.length then
      let c := p.getD n ' '
      if c = '%' then
        match findMatch mapping p n with
        | some e => e.value :: pathSubstAux mapping p fuel (n + e.key.length)
        | none => "%" :: pathSubstAux mapping p fuel (n + 1)
      else
        (⟨[c]⟩ : String) :: pathSubstAux mapping p fuel (n + 1)
    else []

/-- `path_subst(path, mapping)`: sort the mapping, then scan left to right,
substituting the first (hence longest) matching literal at each `%`. -/
def path_subst (path : String) (mapping : List MapEntry) : String :=
  strJoin (pathSubstAux (sortMapping mapping) path.data (path.data.length + 1) 0)

/-! ## Bracket-case folding (`to_lowercase` / `to_uppercase`, lines 632-659)

`_RE_LOWERCASE` is the Python regex of a left brace, a greedy run of
non-left-brace characters as the group, and a right brace; `_RE_UPPERCASE` is
the doubled form.  `re.search` semantics: the leftmost viable start wins, and
the greedy group extends to the last viable closing brace before the next
left brace. -/

/-- Span `(start, endExclusive)` of the first match of the single-brace
pattern: the leftmost left brace followed by some right brace with no left
brace in between; the match ends at the last such right brace before the next
left brace. -/
def lowerMatch (s : List Char) : Option (Nat × Nat) :=
  match leastBelow
      (fun r => isCh s r '}' && (leastBelow (fun l => isCh s l '{') r 0).isSome)
      s.length 0 with
  | none => none
  | some r0 =>
    match greatestBelow (fun l => isCh s l '{') r0 with
    | none => none
    | some i =>
      let m := (leastBelow (fun t => isCh s t '{') (s.length - (i + 1)) (i + 1)).getD s.length
      match greatestBelow (fun j => decide (i < j) && isCh s j '}') m with
      | none => none
      | some j => some (i, j + 1)

/-- Replace the matched single-brace span by the lowercased group:
`path[:m.start()] + m.group(1).lower() + path[m.end():]`. -/
def applyLowerStep (s : List Char) (i e : Nat) : List Char :=
  s.take i ++ (extractL s (i + 1) (e - 1)).map Char.toLower ++ s.drop e

/-- Span `(start, endExclusive)` of the first match of the double-brace
pattern.  `r` is viable when a doubled right brace sits at `r` and the last
left brace before `r` is itself preceded by a left brace (the doubled opener
whose content region is brace-free). -/
def upperMatch (s : List Char) : Option (Nat × Nat) :=
  match leastBelow
      (fun r => isCh s r '}' && isCh s (r + 1) '}' &&
        (match greatestBelow (fun l => isCh s l '{') r with
         | some l => decide (1 ≤ l) && isCh s (l - 1) '{'
         | none => false))
      s.length 0 with
  | none => none
  | some r0 =>
    match greatestBelow (fun l => isCh s l '{') r0 with
    | none => none
    | some l =>
      let i := l - 1
      let m := (leastBelow (fun t => isCh s t '{') (s.length - (i + 2)) (i + 2)).getD s.length
      match greatestBelow
          (fun j => decide (i + 1 < j) && isCh s j '}' && isCh s (j + 1) '}') m with
      | none => none
      | some j => some (i, j + 2)

/-- Replace the matched double-brace span by the uppercased group. -/
def applyUpperStep (s : List Char) (i e : Nat) : List Char :=
  s.take i ++ (extractL s (i + 2) (e - 2)).map Char.toUpper ++ s.drop e

/-- The `while True` loop of `to_lowercase`; each successful match shortens
the string by two characters, so fuel `s.length + 1` suffices. -/
def lowerLoopF : Nat → List Char → List Char
  | 0, s => s
  | fuel + 1, s =>
    match lowerMatch s with
    | none => s
    | some (i, e) => lowerLoopF fuel (applyLowerStep s i e)

/-- The `while True` loop of `to_uppercase`; each successful match shortens
the string by four characters. -/
def upperLoopF : Nat → List Char → List Char
  | 0, s => s
  | fuel + 1, s =>
    match upperMatch s with
    | none => s
    | some (i, e) => upperLoopF fuel (applyUpperStep s i e)

/-- `to_lowercase(path)`: resolve single-brace spans, then strip all stray
braces ("just incase"). -/
def to_lowercase (path : String) : String :=
  let s := lowerLoopF (path.data.length + 1) path.data
  ⟨pyReplaceL (pyReplaceL s ['{'] []) ['}'] []⟩

/-- `to_uppercase(path)`: resolve double-brace spans. -/
def to_uppercase (path : String) : String :=
  ⟨upperLoopF (path.data.length + 1) path.data⟩

/-! ## Folder stripping (`strip_folders`, lines 662-682) -/

def stripAfterChars : List Char := ['_', '.', '-']

/-- One pass of the `strip_all` loop body:
`for strip_char in STRIP_AFTER: x = x.strip().strip(strip_char)`. -/
def stripAllPass (x : String) : String :=
  stripAfterChars.foldl (fun x c => pyStripChars (pyStripWs x) [c]) x

/-- The `while old_name != x` fixed-point loop of `strip_all`; each productive
pass strictly shortens the component. -/
def stripAllF : Nat → String → String
  | 0, x => x
  | fuel + 1, x =>
    let x' := stripAllPass x
    if x' = x then x else stripAllF fuel x'

def strip_all (x : String) : String := stripAllF (x.data.length + 1) x

/-- `strip_folders(path)`: strip every `/`-separated component to a fixed
point (reinserting an empty head component for absolute paths) and normalize
the rejoined result. -/
def strip_folders (path : String) : String :=
  let f := pySplitChar (pyStripChars path ['/']) '/'
  let f :=
    if 0 < (pyStripWs path).data.length ∧
        (pyStripWs path).data.getD 0 ' ' ∈ ['/', '\\'] then
      "" :: f
    else f
  posixNormpath (strIntercalate "/" (f.map strip_all))

/-! ## Decade derivation (`get_decades`, lines 617-629)

The Python body wraps two slice expressions in `try/except`; slicing a string
never raises in Python, so the handler is dead code and the embedding is the
`try` body directly. -/

def get_decades (year : String) : String × String :=
  if year ≠ "" then
    ((⟨extractL year.data 2 3⟩ : String) ++ "0", (⟨year.data.take 3⟩ : String) ++ "0")
  else ("", "")

/-! ## Word-case utilities (`get_titles`, `titler`, `replace_word`,
lines 546-614) -/

/-- The double-quote character (written by code point to keep string literals
simple). -/
def quoteC : Char := Char.ofNat 34

/-- The apostrophe character. -/
def apoC : Char := Char.ofNat 39

/-- The backslash character. -/
def backslashC : Char := Char.ofNat 92

/-- The character class of `re.sub` in `get_titles` that maps
filename-invalid characters to spaces. -/
def invalidFnameChars : List Char :=
  [quoteC, ':', '?', '*', backslashC, '/', '<', '>', '|']

/-- Configuration consumed by the mapping builder (word lists, multi-episode
mode and separator), read from the environment by the script. -/
structure Config where
  lower_words : List String := []
  upper_words : List String := []
  multiple_episodes : String := "range"
  episode_separator : String := "-"
deriving Repr

/-- Does the case-insensitive word regex of `replace_word` —
a non-word character, then the word, then a non-word character or the string
end — match anywhere in `s`?  (`re.findall` is non-empty exactly when a match
exists.) -/
def hasWordMatch (s : List Char) (w : List Char) : Bool :=
  (List.range s.length).any fun i =>
    (match s[i]? with
     | some c => !isWordChar c
     | none => false) &&
    (extractL s (i + 1) (i + 1 + w.length)).map Char.toLower == w.map Char.toLower &&
    decide (i + 1 + w.length ≤ s.length) &&
    (decide (i + 1 + w.length = s.length) ||
      (match s[i + 1 + w.length]? with
       | some c => !isWordChar c
       | none => false))

/-- `replace_word(input, one, two)`: if the word regex matches at least once,
replace every occurrence of `one` by `two`, else leave the input unchanged. -/
def replace_word (input one two : String) : String :=
  if hasWordMatch input.data one.data then pyReplaceS input one two else input

/-- `titler(p)`: Python's `title()` (the Latin-1 fallback of the source only
concerns pre-Unicode strings and is not modelled). -/
def titler (p : String) : String := pyTitle p

/-- The "dots" variant built by `get_titles` and
`get_deobfuscated_dirname`. -/
def dotsVariant (title : String) : String :=
  pyRStripChars
    (pyReplaceS
      (pyReplaceS
        (pyReplaceS
          (pyReplaceS
            (pyReplaceS (pyReplaceS title " - " "-") " " ".")
            "_" ".")
          "(" ".")
        ")" ".")
      ".." ".")
    ['.']

/-- The "underscores" variant built by `get_titles`. -/
def underscoresVariant (title : String) : String :=
  pyRStripChars
    (pyReplaceS (pyReplaceS (pyReplaceS title " " "_") "." "_") "__" "_")
    ['_']

/-- `get_titles(name, titleing)`: sanitize filename-invalid characters,
optionally title-case with the configured exception word lists, and derive
the dotted and underscored variants. -/
def get_titles (cfg : Config) (name : String) (titleing : Bool) :
    String × String × String :=
  let title : String := ⟨name.data.map fun c =>
    if invalidFnameChars.contains c then ' ' else c⟩
  let title :=
    if titleing then
      let t := titler title
      let t := pyReplaceS t ((⟨[apoC, 'S']⟩ : String)) ((⟨[apoC, 's']⟩ : String))
      let t := cfg.lower_words.foldl (fun t x => replace_word t (titler x) x) t
      let t := cfg.upper_words.foldl (fun t x => replace_word t (titler x) x) t
      match t.data with
      | [] => t
      | c :: cs => ⟨(if c.isAlpha then c.toUpper else c) :: cs⟩
    else title
  (title, dotsVariant title, underscoresVariant title)

/-! ## Case-restoration overlay (`get_deobfuscated_dirname`, lines 513-524)

This models the branch taken when a reference title is supplied and the
dirname fails the properly-cased-scene-name check: the prefix before the
resolution marker is compared character-by-character against the reference
title. -/

/-- Is the character at index `i` a decimal digit? -/
def isDigitAt (s : List Char) (i : Nat) : Bool :=
  match s[i]? with
  | some c => c.isDigit
  | none => false

/-- Is the character at index `i` the letter `p`, case-insensitively? -/
def isPAt (s : List Char) (i : Nat) : Bool :=
  match s[i]? with
  | some c => c == 'p' || c == 'P'
  | none => false

/-- Word boundary after position `i - 1`: index `i` is past the end or holds a
non-word character. -/
def boundaryAfter (s : List Char) (i : Nat) : Bool :=
  match s[i]? with
  | some c => !isWordChar c
  | none => true

/-- Does the resolution-marker pattern (word boundary, three or four digits,
`p` or `P`, word boundary) match at index `k` of `s`, with `k` preceded by at
least one character?  This is the tail of the search regex: `(.+?)` then the
boundary, `d{3,4}`, `p` and another boundary, case-insensitively. -/
def markerAt (s : List Char) (k : Nat) : Bool :=
  decide (1 ≤ k) &&
  (match s[k - 1]? with
   | some c => !isWordChar c
   | none => false) &&
  isDigitAt s k && isDigitAt s (k + 1) && isDigitAt s (k + 2) &&
  ((isDigitAt s (k + 3) && isPAt s (k + 4) && boundaryAfter s (k + 5)) ||
   (isPAt s (k + 3) && boundaryAfter s (k + 4)))

/-- Length of the lazy group of `re.search` with the title-match regex
`(.+?)` followed by the resolution marker: the smallest `k` of at least one
such that the marker matches at `k` and the group consists of
newline-free characters (the dot of the regex excludes newlines; a directory
name never contains one, so the search always starts at index zero).
`none` when the regex does not match. -/
def findTitleMatch (dirname : String) : Option Nat :=
  leastBelow
    (fun k =>
      decide (1 ≤ k) && markerAt dirname.data k &&
      (dirname.data.take k).all (fun c => c != '\n'))
    (dirname.data.length + 1) 0

/-- The character-by-character overlay of lines 516-524: over the common
length of the marker prefix and the reference title, take the title's
character where the two differ but agree case-insensitively, otherwise keep
the dirname's character; the remainder of the dirname is appended
unchanged.  When the title-match regex fails, the dirname is returned
unchanged (only a warning is logged). -/
def dirnameCaseOverlay (dirname title : String) : String :=
  match findTitleMatch dirname with
  | some k =>
    let titleLen := min k title.data.length
    let overlaid := (List.range titleLen).map fun idx =>
      let dc := dirname.data.getD idx ' '
      let tc := title.data.getD idx ' '
      if dc ≠ tc ∧ dc.toLower = tc.toLower then tc else dc
    ⟨overlaid ++ dirname.data.drop titleLen⟩
  | none => dirname

/-! ## Path cleanup of `construct_path` (lines 1230-1250) -/

/-- The `REPLACE_AFTER` table (lines 406-414), in insertion order. -/
def replaceAfterPairs : List (String × String) :=
  [("()", ""), ("..", "."), ("__", "_"), ("  ", " "), ("//", "/"),
   (" - - ", " - "), ("--", "-")]

/-- One pass of the cleanup loop: apply all replacement pairs in table
order. -/
def replaceAfterPass (s : String) : String :=
  replaceAfterPairs.foldl (fun s p => pyReplaceS s p.1 p.2) s

/-- The `while old_path != path` fixed-point loop around the replacement
pass; every productive pass strictly shortens the string, so fuel
`s.length + 1` suffices. -/
def replaceAfterFixF : Nat → String → String
  | 0, s => s
  | fuel + 1, s =>
    let s' := replaceAfterPass s
    if s' = s then s else replaceAfterFixF fuel s'

def replaceAfterFix (s : String) : String := replaceAfterFixF (s.data.length + 1) s

/-- The path-normalizer block of `construct_path`: fixed-point literal
replacements, the parent-directory token, bracket-case folding, folder
stripping around the extension, and `os.path.normpath`. -/
def normalize_path (path : String) : String :=
  let path := replaceAfterFix path
  let path := pyReplaceS path "%up" ".."
  let path := to_uppercase path
  let path := to_lowercase path
  let se := posixSplitext path
  let path := strip_folders se.1 ++ se.2
  posixNormpath path

/-! ## Mapping builder (`add_series_mapping`, lines 771-841) -/

/-- The fields of the external guess record consumed by the series mapping
builder.  Python stores the episode attribute as either a single integer or a
list of integers. -/
structure Guess where
  title : Option String := none
  season : Option Nat := none
  episode_title : Option String := none
  episode : Option (Sum Nat (List Nat)) := none
  year : Option Nat := none
deriving Repr

/-- Python `str(guess.get(attr, ""))` for an optional numeric attribute. -/
def pyGetStr : Option Nat → String
  | none => ""
  | some n => pyStr n

/-- `add_series_mapping(guess, mapping)`.  Appends, in source order: show
name in six casings, season number raw and zero-padded, episode-title
entries (empty when the attribute is absent or empty — Python truthiness),
the single- or multi-episode `%e`/`%0e` entries, the year, and both
decades.  (`episodes[0]` and `episodes[-1]` raise `IndexError` in Python on
an empty list; the embedding returns the empty-string defaults there, a case
no claim depends on.) -/
def add_series_mapping (cfg : Config) (guess : Guess) (mapping : List MapEntry) :
    List MapEntry :=
  let series := guess.title.getD ""
  let t := get_titles cfg series true
  let n := get_titles cfg series false
  let mapping := mapping ++
    [⟨"%sn", t.1, none⟩, ⟨"%s.n", t.2.1, none⟩, ⟨"%s_n", t.2.2, none⟩,
     ⟨"%sN", n.1, none⟩, ⟨"%s.N", n.2.1, none⟩, ⟨"%s_N", n.2.2, none⟩]
  let season_num := pyGetStr guess.season
  let mapping := mapping ++
    [⟨"%s", season_num, none⟩, ⟨"%0s", pyRJust season_num 2 '0', none⟩]
  let mapping := mapping ++
    (match guess.episode_title with
     | some title =>
       if title ≠ "" then
         let et := get_titles cfg title true
         let en := get_titles cfg title false
         [⟨"%en", et.1, none⟩, ⟨"%e.n", et.2.1, none⟩, ⟨"%e_n", et.2.2, none⟩,
          ⟨"%eN", en.1, none⟩, ⟨"%e.N", en.2.1, none⟩, ⟨"%e_N", en.2.2, none⟩]
       else
         [⟨"%en", "", none⟩, ⟨"%e.n", "", none⟩, ⟨"%e_n", "", none⟩,
          ⟨"%eN", "", none⟩, ⟨"%e.N", "", none⟩, ⟨"%e_N", "", none⟩]
     | none =>
       [⟨"%en", "", none⟩, ⟨"%e.n", "", none⟩, ⟨"%e_n", "", none⟩,
        ⟨"%eN", "", none⟩, ⟨"%e.N", "", none⟩, ⟨"%e_N", "", none⟩])
  let mapping := mapping ++
    (match guess.episode with
     | some (Sum.inr eps) =>
       let episodes := eps.map pyStr
       let pair :=
         if cfg.multiple_episodes = "range" then
           (episodes.headD "" ++ cfg.episode_separator ++ episodes.getLastD "",
            pyRJust (episodes.headD "") 2 '0' ++ cfg.episode_separator ++
              pyRJust (episodes.getLastD "") 2 '0')
         else
           episodes.foldl
             (fun aj e =>
               let epPre := if aj.1 ≠ "" then cfg.episode_separator else ""
               (aj.1 ++ epPre ++ e, aj.2 ++ epPre ++ pyRJust e 2 '0'))
             ("", "")
       [⟨"%e", pair.1, none⟩, ⟨"%0e", pair.2, none⟩]
     | some (Sum.inl k) =>
       [⟨"%e", pyStr k, none⟩, ⟨"%0e", pyRJust (pyStr k) 2 '0', none⟩]
     | none =>
       [⟨"%e", "", none⟩, ⟨"%0e", pyRJust "" 2 '0', none⟩])
  let year := pyGetStr guess.year
  let mapping := mapping ++ [⟨"%y", year, none⟩]
  let d := get_decades year
  mapping ++ [⟨"%decade", d.1, none⟩, ⟨"%0decade", d.2, none⟩]

/-- First mapping value bound to `key` (resolution order: first match
wins). -/
def lookupKey (mapping : List MapEntry) (key : String) : Option String :=
  (mapping.find? (fun e => e.key == key)).map (fun e => e.value)

/-- All-numbers-joined-by-the-separator form used to state the list-mode
multi-episode property. -/
def joinSep (sep : String) : List String → String
  | [] => ""
  | x :: xs => xs.foldl (fun a y => a ++ sep ++ y) x

/-! ## Destination path construction (`construct_path`, lines 1213-1266)

The metadata guessing and type dispatch select a format string, a
destination directory, and a mapping; the deterministic tail of
`construct_path` is embedded as a function of those. -/

/-- Python `s[-n:]`. -/
def pyLastN (s : String) (n : Nat) : String := ⟨s.data.drop (s.data.length - n)⟩

/-- The destination path `construct_path` computes before its no-op check:
append `.%ext` when the format does not already end with it, substitute,
normalize, and join under the destination root. -/
def construct_candidate (_filename format dest_dir : String)
    (mapping : List MapEntry) : String :=
  let format :=
    if pyLastN (pyRStripChars format ['}']) 5 ≠ ".%ext" then format ++ ".%ext"
    else format
  let sorter := pyReplaceS format (⟨[backslashC]⟩ : String) "/"
  let path := path_subst sorter mapping
  let path := normalize_path path
  let destDir := posixNormpath dest_dir
  posixJoin destDir (pySplitChar path '/')

/-- The tail of `construct_path`: the computed destination, or `none` (the
"no rename needed" sentinel) when it equals the source path up to case. -/
def construct_path (filename format dest_dir : String)
    (mapping : List MapEntry) : Option String :=
  let format :=
    if pyLastN (pyRStripChars format ['}']) 5 ≠ ".%ext" then format ++ ".%ext"
    else format
  let sorter := pyReplaceS format (⟨[backslashC]⟩ : String) "/"
  let path := path_subst sorter mapping
  let path := normalize_path path
  let destDir := posixNormpath dest_dir
  let newPath := posixJoin destDir (pySplitChar path '/')
  if pyUpper filename = pyUpper newPath then none else some newPath

/-! ## Collision resolution and the run loop (lines 190-281, 1361-1443) -/

/-- Exit codes used by NZBGet (lines 46-48). -/
def POSTPROCESS_SUCCESS : Nat := 93
def POSTPROCESS_NONE : Nat := 95
def POSTPROCESS_ERROR : Nat := 94

/-- Run-scoped state: the filesystem (as the list of existing paths), the two
moved-file accumulators, and the two run flags.  `files_moved` is declared at
line 1362 and consulted at lines 1434 and 1440. -/
structure RunState where
  fs : List String := []
  moved_src : List String := []
  moved_dst : List String := []
  errors : Bool := false
  files_moved : Bool := false
deriving Repr, DecidableEq

/-- The candidate produced for suffix number `num` inside `unique_name`. -/
def dupeCandidate (fname sep : String) (num : Nat) (fext : String) : String :=
  fname ++ sep ++ "(" ++ pyStr num ++ ")" ++ fext

/-- The `while True` loop of `unique_name`: try suffix numbers upward until a
candidate is neither on disk nor among this run's destinations. -/
def uniqueNameAux (sep fname fext : String) (occupied : List String) :
    Nat → Nat → String
  | 0, num => dupeCandidate fname sep num fext
  | fuel + 1, num =>
    let cand := dupeCandidate fname sep num fext
    if cand ∈ occupied then uniqueNameAux sep fname fext occupied fuel (num + 1)
    else cand

/-- `unique_name(new)` (lines 236-248), with the global `dupe_separator` and
the occupancy sources made explicit.  Fuel `occupied.length + 1` suffices:
candidates are pairwise distinct, so at most `occupied.length` of them can be
occupied. -/
def unique_name (sep : String) (st : RunState) (new : String) : String :=
  let fe := posixSplitext new
  uniqueNameAux sep fe.1 fe.2 (st.fs ++ st.moved_dst)
    ((st.fs ++ st.moved_dst).length + 1) 2

/-- `rename(old, new)` (lines 260-281) with explicit state, overwrite flag
and separator; `preview` is `False`.  Note that after the recursive
collision-resolution call returns, the outer frame appends the resolved pair
to the moved lists a second time, exactly as the source does.  The fuel
bounds the recursion depth; depth 2 is reached at most, since `unique_name`
returns an unoccupied path. -/
def renameFuel (ow : Bool) (sep : String) :
    Nat → RunState → String → String → RunState × String
  | 0, st, _, new => (st, new)
  | fuel + 1, st, old, new =>
    let step :=
      if new ∈ st.fs ∨ new ∈ st.moved_dst then
        if ow ∧ new ∉ st.moved_dst then
          ({ st with fs := ((st.fs.erase new).erase old) ++ [new] }, new)
        else
          let uniq := unique_name sep st new
          ((renameFuel ow sep fuel st old uniq).1, uniq)
      else
        ({ st with fs := st.fs.erase old ++ [new] }, new)
    ({ step.1 with
        moved_src := step.1.moved_src ++ [old],
        moved_dst := step.1.moved_dst ++ [step.2] }, step.2)

/-- `rename` with fuel that always suffices (depth 2 at most, since the
unique name chosen on collision is unoccupied). -/
def rename (ow : Bool) (sep : String) (st : RunState) (old new : String) :
    RunState × String :=
  renameFuel ow sep (st.fs.length + st.moved_dst.length + 2) st old new

/-- The outcome of `construct_path` plus the move for one video file, as seen
by the per-file `try/except` of the main loop (lines 1396-1415): either
`construct_path` returned a path or the sentinel, or some step raised. -/
inductive FileOutcome where
  | ok : Option String → FileOutcome
  | exn : FileOutcome
deriving Repr, DecidableEq

/-- One iteration of the main processing loop: an exception sets the
run-level error flag; a sentinel result skips the file; a computed path is
moved via `rename`.  (Satellite handling is elided: it only performs further
`rename` calls and touches no other state.)  No branch assigns
`files_moved`. -/
def processFile (ow : Bool) (sep : String) (st : RunState)
    (f : String × FileOutcome) : RunState :=
  match f.2 with
  | .exn => { st with errors := true }
  | .ok none => st
  | .ok (some newPath) => (rename ow sep st f.1 newPath).1

/-- The main loop over the collected video files. -/
def runFiles (ow : Bool) (sep : String) (st : RunState)
    (files : List (String × FileOutcome)) : RunState :=
  files.foldl (processFile ow sep) st

/-- The status returned to NZBGet (lines 1438-1443). -/
def exitCode (st : RunState) : Nat :=
  if st.errors then POSTPROCESS_ERROR
  else if st.files_moved then POSTPROCESS_SUCCESS
  else POSTPROCESS_NONE

/-! ## Basic lemmas about the search and string primitives -/

theorem leastBelow_some (p : Nat → Bool) :
    ∀ fuel k r, leastBelow p fuel k = some r → p r = true := by
  intro fuel
  induction fuel with
  | zero => intro k r h; simp [leastBelow] at h
  | succ fuel ih =>
    intro k r h
    by_cases hp : p k
    · simp [leastBelow, hp] at h; simpa [h] using hp
    · simp [leastBelow, hp] at h; exact ih (k + 1) r h

theorem greatestBelow_some (p : Nat → Bool) :
    ∀ n r, greatestBelow p n = some r → p r = true ∧ r < n := by
  intro n
  induction n with
  | zero => intro r h; simp [greatestBelow] at h
  | succ n ih =>
    intro r h
    by_cases hp : p n
    · simp [greatestBelow, hp] at h
      exact ⟨by simpa [h] using hp, by omega⟩
    · simp [greatestBelow, hp] at h
      obtain ⟨h1, h2⟩ := ih r h
      exact ⟨h1, by omega⟩

theorem isCh_lt {s : List Char} {i : Nat} {c : Char} (h : isCh s i c = true) :
    i < s.length := by
  unfold isCh at h
  by_contra hge
  rw [List.getElem?_eq_none (by omega)] at h
  simp at h

theorem isCh_mem {s : List Char} {i : Nat} {c : Char} (h : isCh s i c = true) :
    c ∈ s := by
  unfold isCh at h
  cases hg : s[i]? with
  | none => rw [hg] at h; simp at h
  | some d =>
    rw [hg] at h
    have hd : d = c := by simpa using h
    have := List.getElem?_mem hg
    rwa [hd] at this

/-! ## Span lemmas for the brace-folding matches -/

theorem lowerMatch_valid {s : List Char} {i e : Nat}
    (h : lowerMatch s = some (i, e)) : i + 2 ≤ e ∧ e ≤ s.length := by
  unfold lowerMatch at h
  split at h
  · exact absurd h (by simp)
  · split at h
    · exact absurd h (by simp)
    · rename_i i0 _
      dsimp only at h
      split at h
      · exact absurd h (by simp)
      · rename_i j hj2
        obtain ⟨hi, he⟩ : i0 = i ∧ j + 1 = e := by
          simpa using h
        obtain ⟨hj, _⟩ := greatestBelow_some _ _ _ hj2
        have hij : i0 < j := of_decide_eq_true ((Bool.and_eq_true _ _).mp hj).1
        have hjlt : j < s.length := isCh_lt ((Bool.and_eq_true _ _).mp hj).2
        omega

theorem upperMatch_valid {s : List Char} {i e : Nat}
    (h : upperMatch s = some (i, e)) : i + 4 ≤ e ∧ e ≤ s.length := by
  unfold upperMatch at h
  split at h
  · exact absurd h (by simp)
  · split at h
    · exact absurd h (by simp)
    · rename_i l _
      dsimp only at h
      split at h
      · exact absurd h (by simp)
      · rename_i j hj2
        obtain ⟨hi, he⟩ : l - 1 = i ∧ j + 2 = e := by
          simpa using h
        obtain ⟨hj, _⟩ := greatestBelow_some _ _ _ hj2
        have hij : l - 1 + 1 < j :=
          of_decide_eq_true ((Bool.and_eq_true _ _).mp ((Bool.and_eq_true _ _).mp hj).1).1
        have hjlt : j + 1 < s.length := isCh_lt ((Bool.and_eq_true _ _).mp hj).2
        omega

theorem applyLowerStep_length {s : List Char} {i e : Nat}
    (h : lowerMatch s = some (i, e)) :
    (applyLowerStep s i e).length + 2 = s.length := by
  obtain ⟨h1, h2⟩ := lowerMatch_valid h
  simp only [applyLowerStep, extractL, List.length_append, List.length_map,
    List.length_drop, List.length_take]
  omega

theorem applyUpperStep_length {s : List Char} {i e : Nat}
    (h : upperMatch s = some (i, e)) :
    (applyUpperStep s i e).length + 4 = s.length := by
  obtain ⟨h1, h2⟩ := upperMatch_valid h
  simp only [applyUpperStep, extractL, List.length_append, List.length_map,
    List.length_drop, List.length_take]
  omega

/-- With fuel exceeding the string length, the single-brace loop runs to
completion: no match remains. -/
theorem lowerLoopF_no_match :
    ∀ fuel (s : List Char), s.length < fuel → lowerMatch (lowerLoopF fuel s) = none := by
  intro fuel
  induction fuel with
  | zero => intro s h; omega
  | succ fuel ih =>
    intro s h
    cases hm : lowerMatch s with
    | none => simp [lowerLoopF, hm]
    | some ie =>
      obtain ⟨i, e⟩ := ie
      have hlen := applyLowerStep_length hm
      have : (applyLowerStep s i e).length < fuel := by omega
      simpa [lowerLoopF, hm] using ih _ this

/-- With fuel exceeding the string length, the double-brace loop runs to
completion: no match remains. -/
theorem upperLoopF_no_match :
    ∀ fuel (s : List Char), s.length < fuel → upperMatch (upperLoopF fuel s) = none := by
  intro fuel
  induction fuel with
  | zero => intro s h; omega
  | succ fuel ih =>
    intro s h
    cases hm : upperMatch s with
    | none => simp [upperLoopF, hm]
    | some ie =>
      obtain ⟨i, e⟩ := ie
      have hlen := applyUpperStep_length hm
      have : (applyUpperStep s i e).length < fuel := by omega
      simpa [upperLoopF, hm] using ih _ this

/-- A string with no left brace has no single-brace match. -/
theorem lowerMatch_of_no_lbrace {s : List Char} (h : '{' ∉ s) :
    lowerMatch s = none := by
  unfold lowerMatch
  cases h0 : leastBelow
      (fun r => isCh s r '}' && (leastBelow (fun l => isCh s l '{') r 0).isSome)
      s.length 0 with
  | none => rfl
  | some r0 =>
    exfalso
    have hp := leastBelow_some _ _ _ _ h0
    have hsome : (leastBelow (fun l => isCh s l '{') r0 0).isSome := by
      have := (Bool.and_eq_true _ _).mp hp
      simpa using this.2
    obtain ⟨l0, hl0⟩ := Option.isSome_iff_exists.mp hsome
    exact h (isCh_mem (leastBelow_some _ _ _ _ hl0))

/-- A string with no left brace has no double-brace match. -/
theorem upperMatch_of_no_lbrace {s : List Char} (h : '{' ∉ s) :
    upperMatch s = none := by
  unfold upperMatch
  cases h0 : leastBelow
      (fun r => isCh s r '}' && isCh s (r + 1) '}' &&
        (match greatestBelow (fun l => isCh s l '{') r with
         | some l => decide (1 ≤ l) && isCh s (l - 1) '{'
         | none => false))
      s.length 0 with
  | none => rfl
  | some r0 =>
    exfalso
    have hp := leastBelow_some _ _ _ _ h0
    have hmatch := ((Bool.and_eq_true _ _).mp hp).2
    cases hg : greatestBelow (fun l => isCh s l '{') r0 with
    | none => rw [hg] at hmatch; simp at hmatch
    | some l => exact h (isCh_mem (greatestBelow_some _ _ _ hg).1)

/-! ## Lemmas about `pyReplaceCore` -/

theorem pyReplaceCore_mem {k v : List Char} :
    ∀ fuel (s : List Char) x, x ∈ pyReplaceCore k v fuel s → x ∈ s ∨ x ∈ v := by
  intro fuel
  induction fuel with
  | zero => intro s x h; exact Or.inl (by simpa [pyReplaceCore] using h)
  | succ fuel ih =>
    intro s x h
    cases s with
    | nil => simp [pyReplaceCore] at h
    | cons a as =>
      by_cases hc : k ≠ [] ∧ k.isPrefixOf (a :: as)
      · rw [pyReplaceCore, if_pos hc] at h
        rcases List.mem_append.mp h with hv | hrec
        · exact Or.inr hv
        · rcases ih _ _ hrec with hs | hv
          · exact Or.inl (List.mem_of_mem_drop hs)
          · exact Or.inr hv
      · rw [pyReplaceCore, if_neg hc] at h
        rcases List.mem_cons.mp h with rfl | hrec
        · exact Or.inl (List.mem_cons_self _ _)
        · rcases ih _ _ hrec with hs | hv
          · exact Or.inl (List.mem_cons_of_mem _ hs)
          · exact Or.inr hv

theorem pyReplaceCore_single_not_mem {c : Char} :
    ∀ fuel (s : List Char), s.length ≤ fuel → c ∉ pyReplaceCore [c] [] fuel s := by
  intro fuel
  induction fuel with
  | zero =>
    intro s h
    have : s = [] := List.length_eq_zero.mp (by omega)
    subst this; simp [pyReplaceCore]
  | succ fuel ih =>
    intro s h
    cases s with
    | nil => simp [pyReplaceCore]
    | cons a as =>
      by_cases hac : a = c
      · subst hac
        have hc : ([a] ≠ ([] : List Char)) ∧ List.isPrefixOf [a] (a :: as) := by
          refine ⟨by simp, ?_⟩
          simp [List.isPrefixOf]
        rw [pyReplaceCore, if_pos hc]
        simpa using ih as (by simpa using Nat.le_of_succ_le_succ (by simpa using h))
      · have hc : ¬(([c] ≠ ([] : List Char)) ∧ List.isPrefixOf [c] (a :: as)) := by
          rintro ⟨-, hp⟩
          have : c = a := by simpa [List.isPrefixOf] using hp
          exact hac this.symm
        rw [pyReplaceCore, if_neg hc]
        intro hmem
        rcases List.mem_cons.mp hmem with rfl | hrec
        · exact hac rfl
        · exact ih as (by simpa using Nat.le_of_succ_le_succ (by simpa using h)) hrec

theorem pyReplaceCore_single_id {c : Char} :
    ∀ fuel (s : List Char), c ∉ s → pyReplaceCore [c] [] fuel s = s := by
  intro fuel
  induction fuel with
  | zero => intro s _; rfl
  | succ fuel ih =>
    intro s h
    cases s with
    | nil => rfl
    | cons a as =>
      have hac : a ≠ c := fun hh => h (hh ▸ List.mem_cons_self _ _)
      have hc : ¬(([c] ≠ ([] : List Char)) ∧ List.isPrefixOf [c] (a :: as)) := by
        rintro ⟨-, hp⟩
        have : c = a := by simpa [List.isPrefixOf] using hp
        exact hac this.symm
      rw [pyReplaceCore, if_neg hc, ih as (fun hmem => h (List.mem_cons_of_mem _ hmem))]

/-- The output of `to_lowercase` contains no brace characters: the loop is
followed by unconditional brace removal. -/
theorem to_lowercase_no_braces (p : String) :
    '{' ∉ (to_lowercase p).data ∧ '}' ∉ (to_lowercase p).data := by
  unfold to_lowercase
  set s := lowerLoopF (p.data.length + 1) p.data with hs
  constructor
  · intro hmem
    have h1 : '{' ∉ pyReplaceL s ['{'] [] :=
      pyReplaceCore_single_not_mem _ _ (le_refl _)
    rcases pyReplaceCore_mem _ _ _ hmem with hin | hv
    · exact h1 hin
    · simp at hv
  · exact pyReplaceCore_single_not_mem _ _ (le_refl _)

/-- `to_uppercase` is the identity on brace-free strings. -/
theorem to_uppercase_of_no_lbrace {p : String} (h : '{' ∉ p.data) :
    to_uppercase p = p := by
  have hloop : upperLoopF (p.data.length + 1) p.data = p.data := by
    rw [upperLoopF, upperMatch_of_no_lbrace h]
  apply String.ext
  show (⟨upperLoopF (p.data.length + 1) p.data⟩ : String).data = p.data
  rw [hloop]

/-- `to_lowercase` is the identity on brace-free strings. -/
theorem to_lowercase_of_no_braces {p : String} (h1 : '{' ∉ p.data)
    (h2 : '}' ∉ p.data) : to_lowercase p = p := by
  have hloop : lowerLoopF (p.data.length + 1) p.data = p.data := by
    rw [lowerLoopF, lowerMatch_of_no_lbrace h1]
  apply String.ext
  show (⟨pyReplaceL (pyReplaceL (lowerLoopF (p.data.length + 1) p.data) ['{'] [])
      ['}'] []⟩ : String).data = p.data
  rw [hloop]
  show pyReplaceCore ['}'] [] _ (pyReplaceCore ['{'] [] _ p.data) = p.data
  rw [pyReplaceCore_single_id _ _ h1, pyReplaceCore_single_id _ _ h2]

/-! ## Shrinking lemmas for the fixed-point cleanup loops -/

theorem pyReplaceCore_length_le {k v : List Char} (hkv : v.length ≤ k.length) :
    ∀ fuel (s : List Char), (pyReplaceCore k v fuel s).length ≤ s.length := by
  intro fuel
  induction fuel with
  | zero => intro s; simp [pyReplaceCore]
  | succ fuel ih =>
    intro s
    cases s with
    | nil => simp [pyReplaceCore]
    | cons a as =>
      by_cases hc : k ≠ [] ∧ k.isPrefixOf (a :: as)
      · rw [pyReplaceCore, if_pos hc]
        have hkle : k.length ≤ (a :: as).length :=
          (List.isPrefixOf_iff_prefix.mp hc.2).length_le
        have := ih (List.drop k.length (a :: as))
        simp only [List.length_append, List.length_drop] at *
        omega
      · rw [pyReplaceCore, if_neg hc]
        have := ih as
        simp only [List.length_cons]
        omega

theorem pyReplaceCore_eq_or_lt {k v : List Char} (hkv : v.length < k.length) :
    ∀ fuel (s : List Char),
      pyReplaceCore k v fuel s = s ∨ (pyReplaceCore k v fuel s).length < s.length := by
  intro fuel
  induction fuel with
  | zero => intro s; exact Or.inl rfl
  | succ fuel ih =>
    intro s
    cases s with
    | nil => exact Or.inl rfl
    | cons a as =>
      by_cases hc : k ≠ [] ∧ k.isPrefixOf (a :: as)
      · right
        rw [pyReplaceCore, if_pos hc]
        have hkle : k.length ≤ (a :: as).length :=
          (List.isPrefixOf_iff_prefix.mp hc.2).length_le
        have hrec := pyReplaceCore_length_le (le_of_lt hkv) fuel
          (List.drop k.length (a :: as))
        simp only [List.length_append, List.length_drop] at *
        omega
      · rw [pyReplaceCore, if_neg hc]
        rcases ih as with heq | hlt
        · exact Or.inl (by rw [heq])
        · right; simp only [List.length_cons]; omega

/-- A self-map of strings that either fixes its argument or strictly shortens
it. -/
def ShrinkStep (f : String → String) : Prop :=
  ∀ s, f s = s ∨ (f s).data.length < s.data.length

theorem ShrinkStep.comp {f g : String → String} (hf : ShrinkStep f)
    (hg : ShrinkStep g) : ShrinkStep (fun s => g (f s)) := by
  intro s
  show g (f s) = s ∨ (g (f s)).data.length < s.data.length
  rcases hf s with hfe | hfl
  · rw [hfe]
    exact hg s
  · rcases hg (f s) with hge | hgl
    · right; rw [hge]; exact hfl
    · right; exact lt_trans hgl hfl

theorem ShrinkStep.foldl {α : Type} {step : String → α → String} :
    ∀ (l : List α), (∀ a ∈ l, ShrinkStep (fun s => step s a)) →
      ShrinkStep (fun s => l.foldl step s) := by
  intro l
  induction l with
  | nil => intro _ s; exact Or.inl rfl
  | cons a as ih =>
    intro h s
    have hcomp := @ShrinkStep.comp (fun s => step s a)
      (fun s => as.foldl step s) (h a (List.mem_cons_self _ _))
      (ih fun b hb => h b (List.mem_cons_of_mem _ hb))
    simpa using hcomp s

theorem pyReplaceS_shrink {k v : String} (hkv : v.data.length < k.data.length) :
    ShrinkStep (fun s => pyReplaceS s k v) := by
  intro s
  rcases pyReplaceCore_eq_or_lt hkv s.data.length s.data with heq | hlt
  · left
    apply String.ext
    exact heq
  · right
    exact hlt

theorem replaceAfterPass_eq_or_lt : ShrinkStep replaceAfterPass := by
  have h := @ShrinkStep.foldl (String × String)
    (fun s p => pyReplaceS s p.1 p.2) replaceAfterPairs
    (by
      intro q hq
      fin_cases hq <;> exact pyReplaceS_shrink (by decide))
  intro s
  simpa [replaceAfterPass] using h s

theorem replaceAfterFixF_fixed :
    ∀ fuel s, s.data.length < fuel →
      replaceAfterPass (replaceAfterFixF fuel s) = replaceAfterFixF fuel s := by
  intro fuel
  induction fuel with
  | zero => intro s h; omega
  | succ fuel ih =>
    intro s h
    rw [replaceAfterFixF]
    by_cases hfix : replaceAfterPass s = s
    · simp only [hfix, if_pos rfl]
      exact hfix
    · rw [if_neg hfix]
      rcases replaceAfterPass_eq_or_lt s with heq | hlt
      · exact absurd heq hfix
      · exact ih _ (by omega)

theorem replaceAfterFixF_of_fixed {s : String} (h : replaceAfterPass s = s) :
    ∀ fuel, replaceAfterFixF fuel s = s := by
  intro fuel
  cases fuel with
  | zero => rfl
  | succ fuel => rw [replaceAfterFixF, h, if_pos rfl]

theorem replaceAfterFix_idem (s : String) :
    replaceAfterFix (replaceAfterFix s) = replaceAfterFix s := by
  unfold replaceAfterFix
  exact replaceAfterFixF_of_fixed
    (replaceAfterFixF_fixed _ s (Nat.lt_succ_self _)) _

theorem dropWhile_eq_or_lt (p : Char → Bool) (l : List Char) :
    l.dropWhile p = l ∨ (l.dropWhile p).length < l.length := by
  cases l with
  | nil => exact Or.inl rfl
  | cons a as =>
    by_cases hp : p a
    · right
      rw [List.dropWhile_cons_of_pos hp]
      have hsub : List.Sublist (as.dropWhile p) as := List.dropWhile_sublist p
      have := hsub.length_le
      simp only [List.length_cons]
      omega
    · exact Or.inl (List.dropWhile_cons_of_neg hp)

theorem pyStripBy_shrink (p : Char → Bool) : ShrinkStep (pyStripBy p) := by
  intro s
  unfold pyStripBy trimLeftBy trimRightBy
  rcases dropWhile_eq_or_lt p s.data with heq | hlt
  · rw [heq]
    rcases dropWhile_eq_or_lt p s.data.reverse with heq2 | hlt2
    · left
      apply String.ext
      show (s.data.reverse.dropWhile p).reverse = s.data
      rw [heq2, List.reverse_reverse]
    · right
      show ((s.data.reverse.dropWhile p).reverse).length < s.data.length
      simpa using hlt2
  · right
    show (((s.data.dropWhile p).reverse.dropWhile p).reverse).length < s.data.length
    have hsub : List.Sublist ((s.data.dropWhile p).reverse.dropWhile p)
        (s.data.dropWhile p).reverse := List.dropWhile_sublist p
    have h1 := hsub.length_le
    simp only [List.length_reverse] at *
    omega

theorem stripAllPass_eq_or_lt : ShrinkStep stripAllPass := by
  have h := @ShrinkStep.foldl Char
    (fun x c => pyStripChars (pyStripWs x) [c]) stripAfterChars
    (by
      intro c _
      exact @ShrinkStep.comp pyStripWs (fun x => pyStripChars x [c])
        (pyStripBy_shrink _) (pyStripBy_shrink _))
  intro s
  simpa [stripAllPass] using h s

theorem stripAllF_fixed :
    ∀ fuel s, s.data.length < fuel →
      stripAllPass (stripAllF fuel s) = stripAllF fuel s := by
  intro fuel
  induction fuel with
  | zero => intro s h; omega
  | succ fuel ih =>
    intro s h
    rw [stripAllF]
    by_cases hfix : stripAllPass s = s
    · simp only [hfix, if_pos rfl]
      exact hfix
    · rw [if_neg hfix]
      rcases stripAllPass_eq_or_lt s with heq | hlt
      · exact absurd heq hfix
      · exact ih _ (by omega)

theorem stripAllF_of_fixed {s : String} (h : stripAllPass s = s) :
    ∀ fuel, stripAllF fuel s = s := by
  intro fuel
  cases fuel with
  | zero => rfl
  | succ fuel => rw [stripAllF, h, if_pos rfl]

theorem strip_all_idem (s : String) : strip_all (strip_all s) = strip_all s := by
  unfold strip_all
  exact stripAllF_of_fixed (stripAllF_fixed _ s (Nat.lt_succ_self _)) _

/-- The composition used at lines 1240-1243: double-brace folding, then
single-brace folding. -/
theorem bracket_fold_idem (p : String) :
    to_lowercase (to_uppercase (to_lowercase (to_uppercase p))) =
      to_lowercase (to_uppercase p) := by
  obtain ⟨h1, h2⟩ := to_lowercase_no_braces (to_uppercase p)
  rw [to_uppercase_of_no_lbrace h1, to_lowercase_of_no_braces h1 h2]

/-! ## Claim theorems -/

/-- C2 (counterexample): the full Path Normalizer pipeline of
`construct_path` is not idempotent.  The parent-directory token is replaced
by a doubled dot only after the fixed-point literal-replacement pass, so for
the input `a%upb/c` the first run outputs `a..b/c` and the second run
collapses the doubled dot to `a.b/c`. -/
theorem normalize_path_not_idempotent :
    normalize_path "a%upb/c" = "a..b/c" ∧
    normalize_path (normalize_path "a%upb/c") = "a.b/c" ∧
    (normalize_path (normalize_path "a%upb/c") == normalize_path "a%upb/c") =
      false := by
  refine ⟨by decide, by decide, by decide⟩

/-- C2 (amended): each cleanup pass of the Path Normalizer is idempotent in
isolation — the fixed-point literal-replacement pass, the per-component
trimming of folder stripping, and the bracket-case folding (double-brace
resolution followed by single-brace resolution and stray-brace removal) all
fix their own output — although the composed pipeline is not idempotent
because the parent-token replacement runs after the literal-replacement
pass. -/
theorem normalizer_passes_idempotent :
    (∀ s, replaceAfterFix (replaceAfterFix s) = replaceAfterFix s) ∧
    (∀ s, strip_all (strip_all s) = strip_all s) ∧
    (∀ p, to_lowercase (to_uppercase (to_lowercase (to_uppercase p))) =
      to_lowercase (to_uppercase p)) :=
  ⟨replaceAfterFix_idem, strip_all_idem, bracket_fold_idem⟩

/-- C9: each successful match of the brace-folding loops replaces the matched
span (including its surrounding braces) by a strictly shorter string: the
single-brace loop of `to_lowercase` shrinks the string by exactly two
characters per iteration, the double-brace loop of `to_uppercase` by exactly
four; consequently, with fuel bounded by the string length both loops reach a
string with no further match. -/
theorem brace_loops_terminate :
    (∀ (s : List Char) i e, lowerMatch s = some (i, e) →
      (applyLowerStep s i e).length + 2 = s.length) ∧
    (∀ (s : List Char) i e, upperMatch s = some (i, e) →
      (applyUpperStep s i e).length + 4 = s.length) ∧
    (∀ s : List Char, lowerMatch (lowerLoopF (s.length + 1) s) = none) ∧
    (∀ s : List Char, upperMatch (upperLoopF (s.length + 1) s) = none) :=
  ⟨fun _ _ _ h => applyLowerStep_length h,
   fun _ _ _ h => applyUpperStep_length h,
   fun s => lowerLoopF_no_match _ s (Nat.lt_succ_self _),
   fun s => upperLoopF_no_match _ s (Nat.lt_succ_self _)⟩

/-- C9 (witness): the decrease lemma applied to the concrete string of a left
brace, the letter `a`, and a right brace, whose single-brace match spans the
whole string. -/
theorem brace_loops_terminate_witness :
    (applyLowerStep ['\x7b', 'a', '\x7d'] 0 3).length + 2 =
      (['\x7b', 'a', '\x7d'] : List Char).length :=
  brace_loops_terminate.1 _ 0 3 (by decide)

/-- C4: double-brace spans are resolved (to uppercased content) strictly
before single-brace spans: `to_uppercase` leaves no double-brace match for
`to_lowercase` to see, and `to_lowercase` strips every remaining brace.  In
particular the template of a double-braced `%sn` followed by a single-braced
`%sn`, with show name `Foo Bar`, normalizes to `FOO BAR foo bar`. -/
theorem bracket_case_precedence :
    normalize_path (path_subst "\x7b\x7b%sn\x7d\x7d \x7b%sn\x7d"
      (add_series_mapping
        { lower_words := ["the", "of", "and", "at"],
          upper_words := ["III", "II"],
          multiple_episodes := "range", episode_separator := "-" }
        { title := some "Foo Bar" } [])) = "FOO BAR foo bar" ∧
    (∀ p : String, upperMatch (to_uppercase p).data = none) ∧
    (∀ p : String, '\x7b' ∉ (to_lowercase p).data ∧ '\x7d' ∉ (to_lowercase p).data) := by
  refine ⟨by decide, fun p => ?_, to_lowercase_no_braces⟩
  show upperMatch (upperLoopF (p.data.length + 1) p.data) = none
  exact upperLoopF_no_match _ _ (Nat.lt_succ_self _)

/-- C10: `get_decades` is total — the slice expressions in its body cannot
raise, making the exception handler dead code — it returns the pair of two
empty strings exactly when the year is empty, and on a non-empty year shorter
than three characters the two-digit decade degenerates to the string `0`. -/
theorem get_decades_total :
    (∀ year, get_decades year = ("", "") ↔ year = "") ∧
    (∀ year, year ≠ "" → year.data.length < 3 → (get_decades year).1 = "0") := by
  constructor
  · intro year
    constructor
    · intro h
      by_contra hne
      rw [get_decades, if_pos hne] at h
      have h1 := congrArg (fun q => q.1.data) h
      simp only at h1
      have : ((⟨extractL year.data 2 3⟩ : String) ++ "0").data =
          extractL year.data 2 3 ++ ['0'] := rfl
      rw [this] at h1
      simpa using congrArg List.length h1
    · intro h
      rw [get_decades, if_neg (by simpa using h)]
  · intro year hne hlen
    rw [get_decades, if_pos hne]
    have htake : year.data.take 3 = year.data := List.take_of_length_le (by omega)
    have hdrop : (year.data.take 3).drop 2 = [] := by
      rw [htake]
      exact List.drop_eq_nil_of_le (by omega)
    show (⟨extractL year.data 2 3⟩ : String) ++ "0" = "0"
    apply String.ext
    show extractL year.data 2 3 ++ ['0'] = ['0']
    rw [extractL, hdrop]
    rfl

/-- C10 (witness): the theorem applied to the concrete years `24` (two-digit
decade `0`) and the empty string. -/
theorem get_decades_total_witness :
    (get_decades "24").1 = "0" ∧ get_decades "" = ("", "") :=
  ⟨get_decades_total.2 "24" (by decide) (by decide),
   (get_decades_total.1 "").mpr rfl⟩

/-! ## Sorting lemmas for the substitution engine -/

theorem stableInsert_mem (le : MapEntry → MapEntry → Bool) (x : MapEntry) :
    ∀ (l : List MapEntry) (z : MapEntry),
      z ∈ stableInsert le x l ↔ z = x ∨ z ∈ l := by
  intro l
  induction l with
  | nil => intro z; simp [stableInsert]
  | cons y ys ih =>
    intro z
    by_cases hle : le x y
    · rw [stableInsert, if_pos hle]
      simp [or_comm, or_left_comm, or_assoc]
    · rw [stableInsert, if_neg hle]
      simp only [List.mem_cons, ih]
      tauto

theorem stableSort_mem (le : MapEntry → MapEntry → Bool) :
    ∀ (l : List MapEntry) (z : MapEntry), z ∈ stableSort le l ↔ z ∈ l := by
  intro l
  induction l with
  | nil => intro z; simp [stableSort]
  | cons a as ih =>
    intro z
    show z ∈ stableInsert le a (stableSort le as) ↔ z ∈ a :: as
    rw [stableInsert_mem, ih]
    simp

/-- The length-descending relation maintained by the second sorting pass. -/
def LenDesc (a b : MapEntry) : Prop := b.key.length ≤ a.key.length

theorem stableInsert_pairwise_lenDesc {x : MapEntry} :
    ∀ {l : List MapEntry}, List.Pairwise LenDesc l →
      List.Pairwise LenDesc
        (stableInsert (fun a b => decide (b.key.length ≤ a.key.length)) x l) := by
  intro l
  induction l with
  | nil => intro _; simp [stableInsert, List.pairwise_cons]
  | cons y ys ih =>
    intro h
    obtain ⟨hy, hys⟩ := List.pairwise_cons.mp h
    by_cases hxy : y.key.length ≤ x.key.length
    · rw [stableInsert, if_pos (decide_eq_true hxy)]
      refine List.pairwise_cons.mpr ⟨?_, h⟩
      intro z hz
      rcases List.mem_cons.mp hz with rfl | hz
      · exact hxy
      · exact le_trans (hy z hz) hxy
    · rw [stableInsert, if_neg (by simpa using hxy)]
      have hyx : LenDesc y x := by
        unfold LenDesc
        omega
      refine List.pairwise_cons.mpr ⟨?_, ih hys⟩
      intro z hz
      rcases (stableInsert_mem _ _ _ _).mp hz with rfl | hz
      · exact hyx
      · exact hy z hz

theorem stableSort_pairwise_lenDesc :
    ∀ l : List MapEntry,
      List.Pairwise LenDesc
        (stableSort (fun a b => decide (b.key.length ≤ a.key.length)) l) := by
  intro l
  induction l with
  | nil => simp [stableSort]
  | cons a as ih => exact stableInsert_pairwise_lenDesc ih

theorem sortMapping_mem (mapping : List MapEntry) (z : MapEntry) :
    z ∈ sortMapping mapping ↔ z ∈ mapping := by
  unfold sortMapping
  rw [stableSort_mem, stableSort_mem]

theorem sortMapping_pairwise (mapping : List MapEntry) :
    List.Pairwise LenDesc (sortMapping mapping) :=
  stableSort_pairwise_lenDesc _

theorem find?_max_len (p : MapEntry → Bool) :
    ∀ l : List MapEntry, List.Pairwise LenDesc l →
      ∀ e, l.find? p = some e →
        ∀ x ∈ l, p x = true → x.key.length ≤ e.key.length := by
  intro l
  induction l with
  | nil => intro _ e h; simp at h
  | cons a as ih =>
    intro hpw e hfind x hx hpx
    obtain ⟨ha, has⟩ := List.pairwise_cons.mp hpw
    by_cases hpa : p a
    · rw [List.find?_cons_of_pos _ hpa] at hfind
      obtain rfl : a = e := by simpa using hfind
      rcases List.mem_cons.mp hx with rfl | hx
      · exact le_refl _
      · exact ha x hx
    · rw [List.find?_cons_of_neg _ hpa] at hfind
      rcases List.mem_cons.mp hx with rfl | hx
      · exact absurd hpx hpa
      · exact ih has e hfind x hx hpx

/-- C3: the substitution engine resolves the mapping sorted ascending by
literal text then (stably) descending by literal length, so the entry chosen
at any scan position is a longest matching literal: every mapping entry whose
literal matches at that position has key length at most that of the entry
selected.  In particular the template of `%sn`, a hyphen and `%s`, with a
series record of season 1 and show name `Foo`, substitutes to `Foo-1` rather
than `Foo` followed by the leftover literal of `n` and the season number. -/
theorem longest_match_substitution :
    (∀ (mapping : List MapEntry) (p : List Char) (n : Nat) (e : MapEntry),
      findMatch (sortMapping mapping) p n = some e →
      ∀ e2 ∈ mapping, startswithAt p e2.key.data n = true →
        e2.key.length ≤ e.key.length) ∧
    path_subst "%sn-%s"
      (add_series_mapping
        { lower_words := ["the", "of", "and", "at"],
          upper_words := ["III", "II"],
          multiple_episodes := "range", episode_separator := "-" }
        { title := some "Foo", season := some 1 } []) = "Foo-1" := by
  constructor
  · intro mapping p n e hfind e2 he2 hmatch
    exact find?_max_len _ _ (sortMapping_pairwise mapping) e hfind e2
      ((sortMapping_mem mapping e2).mpr he2) hmatch
  · decide

/-- C3 (witness): the longest-match theorem applied to a two-entry mapping at
position zero of the same template: the matching shorter `%s` entry is
bounded by the selected `%sn` entry. -/
theorem longest_match_substitution_witness :
    (⟨"%s", "1", none⟩ : MapEntry).key.length ≤
      (⟨"%sn", "Foo", none⟩ : MapEntry).key.length :=
  longest_match_substitution.1
    [⟨"%s", "1", none⟩, ⟨"%sn", "Foo", none⟩] "%sn-%s".data 0
    ⟨"%sn", "Foo", none⟩ (by decide) ⟨"%s", "1", none⟩ (by decide) (by decide)

/-! ## Value lemmas for the multi-episode entries -/

theorem pyStr_ne_empty (n : Nat) : pyStr n ≠ "" := by
  intro h
  have hd := congrArg String.data h
  by_cases hn : n < 10
  · simp [pyStr, natDigits, hn] at hd
  · simp [pyStr, natDigits, hn] at hd

theorem str_append_ne_empty_left {a : String} (h : a ≠ "") (b : String) :
    a ++ b ≠ "" := by
  intro hc
  apply h
  apply String.ext
  have : a.data ++ b.data = [] := congrArg String.data hc
  exact (List.append_eq_nil.mp this).1

theorem getLastD_map_pyStr (rest : List Nat) (e0 : Nat) :
    (pyStr e0 :: List.map pyStr rest).getLast?.getD "" =
      pyStr ((rest : List Nat).getLast?.getD e0) := by
  cases hl : rest.getLast? with
  | none =>
    have : rest = [] := List.getLast?_eq_none_iff.mp hl
    subst this
    rfl
  | some v =>
    have hne : rest ≠ [] := by
      intro hr; subst hr; simp at hl
    have h1 : (pyStr e0 :: List.map pyStr rest).getLast? = some (pyStr v) := by
      rw [List.getLast?_cons, List.getLast?_map, hl]
      rfl
    rw [h1]
    rfl

theorem foldl_episode_pair (sep : String) :
    ∀ (l : List String) (a b : String), a ≠ "" →
      List.foldl
        (fun (aj : String × String) e =>
          ((aj.1 ++ if aj.1 = "" then "" else sep) ++ e,
            (aj.2 ++ if aj.1 = "" then "" else sep) ++ pyRJust e 2 '0'))
        (a, b) l =
      (List.foldl (fun x y => x ++ sep ++ y) a l,
        List.foldl (fun x y => x ++ sep ++ y) b
          (List.map (fun e => pyRJust e 2 '0') l)) := by
  intro l
  induction l with
  | nil => intro a b _; rfl
  | cons e es ih =>
    intro a b ha
    simp only [List.foldl_cons, List.map_cons, if_neg ha]
    exact ih (a ++ sep ++ e) (b ++ sep ++ pyRJust e 2 '0')
      (str_append_ne_empty_left (str_append_ne_empty_left ha sep) e)

/-- C5: for a series record whose episode attribute is a non-empty list of
numbers and any configured separator, the Mapping Builder binds `%e` and
`%0e` as the claim states: in range mode `%e` is the first number, the
separator, then the last number, and `%0e` the same with both numbers
zero-padded to two digits; in list mode `%e` joins all numbers with the
separator and `%0e` joins all two-digit-padded numbers.  In particular
episodes 1, 2, 3 with separator `-` give range values `1-3` and `01-03` and
list values `1-2-3` and `01-02-03`. -/
theorem multi_episode_formatting :
    (∀ (cfg : Config) (g : Guess) (e0 : Nat) (rest : List Nat),
      g.episode = some (Sum.inr (e0 :: rest)) →
      ((cfg.multiple_episodes = "range" →
        lookupKey (add_series_mapping cfg g []) "%e" =
          some (pyStr e0 ++ cfg.episode_separator ++
            pyStr (rest.getLast?.getD e0)) ∧
        lookupKey (add_series_mapping cfg g []) "%0e" =
          some (pyRJust (pyStr e0) 2 '0' ++ cfg.episode_separator ++
            pyRJust (pyStr (rest.getLast?.getD e0)) 2 '0')) ∧
      (cfg.multiple_episodes = "list" →
        lookupKey (add_series_mapping cfg g []) "%e" =
          some (joinSep cfg.episode_separator (List.map pyStr (e0 :: rest))) ∧
        lookupKey (add_series_mapping cfg g []) "%0e" =
          some (joinSep cfg.episode_separator
            (List.map (fun e => pyRJust (pyStr e) 2 '0') (e0 :: rest)))))) ∧
    (lookupKey (add_series_mapping
        { lower_words := [], upper_words := [],
          multiple_episodes := "range", episode_separator := "-" }
        { episode := some (Sum.inr [1, 2, 3]) } []) "%e" = some "1-3" ∧
     lookupKey (add_series_mapping
        { lower_words := [], upper_words := [],
          multiple_episodes := "range", episode_separator := "-" }
        { episode := some (Sum.inr [1, 2, 3]) } []) "%0e" = some "01-03" ∧
     lookupKey (add_series_mapping
        { lower_words := [], upper_words := [],
          multiple_episodes := "list", episode_separator := "-" }
        { episode := some (Sum.inr [1, 2, 3]) } []) "%e" = some "1-2-3" ∧
     lookupKey (add_series_mapping
        { lower_words := [], upper_words := [],
          multiple_episodes := "list", episode_separator := "-" }
        { episode := some (Sum.inr [1, 2, 3]) } []) "%0e" = some "01-02-03") := by
  constructor
  · intro cfg g e0 rest hep
    obtain ⟨gt, gs, gett, gep, gy⟩ := g
    simp only at hep
    subst hep
    rcases gett with _ | t
    · refine ⟨fun hm => ⟨?_, ?_⟩, fun hm => ⟨?_, ?_⟩⟩ <;>
        simp +decide [add_series_mapping, lookupKey, List.find?, joinSep, hm,
          List.map_map, Function.comp] <;>
        first
          | rw [getLastD_map_pyStr]
          | (rw [foldl_episode_pair cfg.episode_separator (List.map pyStr rest)
              (pyStr e0) (pyRJust (pyStr e0) 2 '0') (pyStr_ne_empty e0)]
             <;> simp [List.map_map, Function.comp_def])
    · by_cases ht : t = "" <;>
      · refine ⟨fun hm => ⟨?_, ?_⟩, fun hm => ⟨?_, ?_⟩⟩ <;>
          simp +decide [add_series_mapping, lookupKey, List.find?, joinSep, hm, ht,
            List.map_map, Function.comp] <;>
          first
            | rw [getLastD_map_pyStr]
            | (rw [foldl_episode_pair cfg.episode_separator (List.map pyStr rest)
                (pyStr e0) (pyRJust (pyStr e0) 2 '0') (pyStr_ne_empty e0)]
               <;> simp [List.map_map, Function.comp_def])
  · refine ⟨by decide, by decide, by decide, by decide⟩

/-! ## Lemmas for the case-restoration overlay -/

theorem isDigitAt_lt {s : List Char} {i : Nat} (h : isDigitAt s i = true) :
    i < s.length := by
  unfold isDigitAt at h
  by_contra hge
  rw [List.getElem?_eq_none (by omega)] at h
  simp at h

theorem markerAt_lt {s : List Char} {k : Nat} (h : markerAt s k = true) :
    k < s.length := by
  unfold markerAt at h
  have hdig : isDigitAt s k = true := by
    have h1 := (Bool.and_eq_true _ _).mp h
    have h2 := (Bool.and_eq_true _ _).mp h1.1
    have h3 := (Bool.and_eq_true _ _).mp h2.1
    have h4 := (Bool.and_eq_true _ _).mp h3.1
    exact h4.2
  exact isDigitAt_lt hdig

/-- C6: when the title-match regex locates a resolution-marker prefix of
length `k` in the dirname, the case-restoration overlay output agrees with
the claim position by position: over the common length of that prefix and
the reference title, a position gets the title's character exactly when the
two strings differ there but agree case-insensitively, and the dirname's
character otherwise; everything past the common length is the dirname's
remainder unchanged, so the overlay also preserves the total length. -/
theorem case_overlay_characterization :
    ∀ (d t : String) (k : Nat), findTitleMatch d = some k →
      (∀ idx, idx < min k t.data.length →
        (dirnameCaseOverlay d t).data[idx]? =
          some (if d.data.getD idx ' ' ≠ t.data.getD idx ' ' ∧
              (d.data.getD idx ' ').toLower = (t.data.getD idx ' ').toLower
            then t.data.getD idx ' ' else d.data.getD idx ' ')) ∧
      (dirnameCaseOverlay d t).data.drop (min k t.data.length) =
        d.data.drop (min k t.data.length) ∧
      (dirnameCaseOverlay d t).data.length = d.data.length := by
  intro d t k h
  have hk : k < d.data.length := by
    have hp := leastBelow_some _ _ _ _ h
    have h1 := (Bool.and_eq_true _ _).mp hp
    have h2 := (Bool.and_eq_true _ _).mp h1.1
    exact markerAt_lt h2.2
  have hdata : (dirnameCaseOverlay d t).data =
      (List.range (min k t.data.length)).map (fun idx =>
        if d.data.getD idx ' ' ≠ t.data.getD idx ' ' ∧
            (d.data.getD idx ' ').toLower = (t.data.getD idx ' ').toLower
          then t.data.getD idx ' ' else d.data.getD idx ' ') ++
        d.data.drop (min k t.data.length) := by
    unfold dirnameCaseOverlay
    rw [h]
  have hdrop2 : ∀ (l1 l2 : List Char) (n : Nat), l1.length = n →
      (l1 ++ l2).drop n = l2 := by
    intro l1 l2 n hn
    subst hn
    exact List.drop_left _ _
  refine ⟨?_, ?_, ?_⟩
  · intro idx hidx
    rw [hdata, List.getElem?_append, if_pos (by simpa using hidx),
      List.getElem?_map, List.getElem?_range hidx]
    rfl
  · rw [hdata]
    exact hdrop2 _ _ _ (by simp)
  · rw [hdata]
    simp only [List.length_append, List.length_map, List.length_range,
      List.length_drop]
    omega

/-- C6 (witness): the overlay characterization applied to a concrete
obfuscated dirname and reference title; the marker prefix has length 8, and
the overlay restores the title casing of the leading character while
preserving the length. -/
theorem case_overlay_characterization_witness :
    (dirnameCaseOverlay "foo.Bar.720p-GRP" "Foo Bar").data[0]? = some 'F' ∧
    (dirnameCaseOverlay "foo.Bar.720p-GRP" "Foo Bar").data.length =
      ("foo.Bar.720p-GRP" : String).data.length := by
  have h := case_overlay_characterization "foo.Bar.720p-GRP" "Foo Bar" 8 (by decide)
  refine ⟨?_, h.2.2⟩
  have h0 := h.1 0 (by decide)
  simpa using h0

/-! ## Lemmas for collision resolution and the run loop -/

theorem unique_name_first_free (sep : String) (st : RunState) (new : String)
    (h : dupeCandidate (posixSplitext new).1 sep 2 (posixSplitext new).2 ∉
      st.fs ++ st.moved_dst) :
    unique_name sep st new =
      dupeCandidate (posixSplitext new).1 sep 2 (posixSplitext new).2 := by
  unfold unique_name
  rw [uniqueNameAux, if_neg (by simpa using h)]

theorem unique_name_second_free (sep : String) (st : RunState) (new : String)
    (h2 : dupeCandidate (posixSplitext new).1 sep 2 (posixSplitext new).2 ∈
      st.fs ++ st.moved_dst)
    (h3 : dupeCandidate (posixSplitext new).1 sep 3 (posixSplitext new).2 ∉
      st.fs ++ st.moved_dst) :
    unique_name sep st new =
      dupeCandidate (posixSplitext new).1 sep 3 (posixSplitext new).2 := by
  obtain ⟨m, hm⟩ : ∃ m, (st.fs ++ st.moved_dst).length = m + 1 := by
    have hpos : 0 < (st.fs ++ st.moved_dst).length :=
      List.length_pos.mpr (List.ne_nil_of_mem h2)
    exact ⟨(st.fs ++ st.moved_dst).length - 1, by omega⟩
  unfold unique_name
  rw [hm]
  rw [uniqueNameAux, if_pos (by simpa using h2)]
  rw [uniqueNameAux, if_neg (by simpa using h3)]

theorem renameFuel_free (ow : Bool) (sep : String) (st : RunState)
    (old new : String) (h1 : new ∉ st.fs) (h2 : new ∉ st.moved_dst)
    (fuel : Nat) :
    renameFuel ow sep (fuel + 1) st old new =
      ({ st with
          fs := st.fs.erase old ++ [new],
          moved_src := st.moved_src ++ [old],
          moved_dst := st.moved_dst ++ [new] }, new) := by
  rw [renameFuel]
  rw [if_neg (by simp [h1, h2])]

theorem rename_collision_once (sep : String) (st : RunState) (old dst : String)
    (h1 : dst ∈ st.fs ∨ dst ∈ st.moved_dst)
    (h2 : dupeCandidate (posixSplitext dst).1 sep 2 (posixSplitext dst).2 ∉
      st.fs ++ st.moved_dst) :
    rename false sep st old dst =
      ({ st with
          fs := st.fs.erase old ++
            [dupeCandidate (posixSplitext dst).1 sep 2 (posixSplitext dst).2],
          moved_src := (st.moved_src ++ [old]) ++ [old],
          moved_dst := (st.moved_dst ++
              [dupeCandidate (posixSplitext dst).1 sep 2 (posixSplitext dst).2]) ++
            [dupeCandidate (posixSplitext dst).1 sep 2 (posixSplitext dst).2] },
        dupeCandidate (posixSplitext dst).1 sep 2 (posixSplitext dst).2) := by
  have hfe : st.fs.length + st.moved_dst.length + 2 =
      (st.fs.length + st.moved_dst.length + 1) + 1 := rfl
  rw [rename, hfe, renameFuel]
  rw [if_pos h1, if_neg (by simp)]
  rw [unique_name_first_free sep st dst h2]
  dsimp only
  rw [renameFuel_free false sep st old _
    (fun hc => h2 (List.mem_append.mpr (Or.inl hc)))
    (fun hc => h2 (List.mem_append.mpr (Or.inr hc)))]

theorem renameFuel_files_moved (ow : Bool) (sep : String) :
    ∀ fuel (st : RunState) (old new : String),
      ((renameFuel ow sep fuel st old new).1).files_moved = st.files_moved := by
  intro fuel
  induction fuel with
  | zero => intro st old new; rfl
  | succ fuel ih =>
    intro st old new
    rw [renameFuel]
    dsimp only
    by_cases hocc : new ∈ st.fs ∨ new ∈ st.moved_dst
    · rw [if_pos hocc]
      by_cases how : ow = true ∧ new ∉ st.moved_dst
      · rw [if_pos how]
      · rw [if_neg how]
        exact ih st old (unique_name sep st new)
    · rw [if_neg hocc]

theorem runFiles_files_moved (ow : Bool) (sep : String) :
    ∀ (files : List (String × FileOutcome)) (st : RunState),
      (runFiles ow sep st files).files_moved = st.files_moved := by
  intro files
  induction files with
  | nil => intro st; rfl
  | cons f fs ih =>
    intro st
    show (runFiles ow sep (processFile ow sep st f) fs).files_moved = _
    rw [ih]
    obtain ⟨path, outcome⟩ := f
    cases outcome with
    | exn => rfl
    | ok o =>
      cases o with
      | none => rfl
      | some d => exact renameFuel_files_moved ow sep _ st path d

/-- C1 (code bug): the run-level flag `files_moved` is initialized to `False`
at line 1362 but never assigned again, so the success status is unreachable:
every run exits with the error status (when any file failed) or the
"nothing to do" status — even a run that moves a file successfully, which by
the claim should exit with the success status, exits with the "nothing to
do" status while its `moved_dst_files` list records the move. -/
theorem exit_success_unreachable :
    (∀ (ow : Bool) (sep : String) (fs : List String)
        (files : List (String × FileOutcome)),
      exitCode (runFiles ow sep { fs := fs } files) ≠ POSTPROCESS_SUCCESS) ∧
    (runFiles false " " { fs := [] }
        [("/dl/a.mkv", FileOutcome.ok (some "/v/A.mkv"))]).moved_dst =
      ["/v/A.mkv"] ∧
    (runFiles false " " { fs := [] }
        [("/dl/a.mkv", FileOutcome.ok (some "/v/A.mkv"))]).errors = false ∧
    exitCode (runFiles false " " { fs := [] }
        [("/dl/a.mkv", FileOutcome.ok (some "/v/A.mkv"))]) = POSTPROCESS_NONE := by
  refine ⟨?_, by decide, by decide, by decide⟩
  intro ow sep fs files
  have hfm : (runFiles ow sep { fs := fs } files).files_moved = false :=
    runFiles_files_moved ow sep files { fs := fs }
  unfold exitCode
  rw [hfm]
  by_cases he : (runFiles ow sep { fs := fs } files).errors
  · rw [if_pos he]
    decide
  · rw [if_neg he, if_neg (by simp)]
    decide

/-- C7: `construct_path` returns the "no rename needed" sentinel exactly when
the computed destination path equals the source path up to letter case; in
particular a computed destination differing from the source only by case
yields the sentinel rather than a path or an error. -/
theorem no_rename_sentinel :
    (∀ (filename format dest_dir : String) (mapping : List MapEntry),
      construct_path filename format dest_dir mapping = none ↔
        pyUpper (construct_candidate filename format dest_dir mapping) =
          pyUpper filename) ∧
    construct_path "/dest/show.mkv" "%t" "/dest"
      [⟨"%t", "Show", none⟩, ⟨"%ext", ".MKV", none⟩] = none := by
  refine ⟨?_, by decide⟩
  intro f fm dd m
  have he : construct_path f fm dd m =
      if pyUpper f = pyUpper (construct_candidate f fm dd m) then none
      else some (construct_candidate f fm dd m) := rfl
  rw [he]
  by_cases h : pyUpper f = pyUpper (construct_candidate f fm dd m)
  · rw [if_pos h]
    simp [h.symm]
  · rw [if_neg h]
    constructor
    · intro hsome
      exact absurd hsome (by simp)
    · intro hcf
      exact absurd hcf.symm h

/-- C8: when overwrite is not requested and the computed destination is
occupied (on disk or among this run's destinations), collision resolution
appends the parenthesized numeric suffix with the given dupe separator,
starting at 2 and incrementing until free: a second file resolving to an
occupied name is moved to the suffix-2 candidate, and a third — with the
suffix-2 candidate now occupied — to the suffix-3 candidate; each resolved
name is recorded among the run's destinations. -/
theorem collision_numbering :
    (∀ (sep : String) (st : RunState) (old dst : String),
      (dst ∈ st.fs ∨ dst ∈ st.moved_dst) →
      dupeCandidate (posixSplitext dst).1 sep 2 (posixSplitext dst).2 ∉
        st.fs ++ st.moved_dst →
      (rename false sep st old dst).2 =
        dupeCandidate (posixSplitext dst).1 sep 2 (posixSplitext dst).2 ∧
      dupeCandidate (posixSplitext dst).1 sep 2 (posixSplitext dst).2 ∈
        (rename false sep st old dst).1.moved_dst) ∧
    (∀ (sep : String) (st : RunState) (old dst : String),
      (dst ∈ st.fs ∨ dst ∈ st.moved_dst) →
      dupeCandidate (posixSplitext dst).1 sep 2 (posixSplitext dst).2 ∈
        st.fs ++ st.moved_dst →
      dupeCandidate (posixSplitext dst).1 sep 3 (posixSplitext dst).2 ∉
        st.fs ++ st.moved_dst →
      (rename false sep st old dst).2 =
        dupeCandidate (posixSplitext dst).1 sep 3 (posixSplitext dst).2 ∧
      dupeCandidate (posixSplitext dst).1 sep 3 (posixSplitext dst).2 ∈
        (rename false sep st old dst).1.moved_dst) := by
  constructor
  · intro sep st old dst h1 h2
    rw [rename_collision_once sep st old dst h1 h2]
    refine ⟨rfl, ?_⟩
    simp
  · intro sep st old dst h1 h2 h3
    have hfe : st.fs.length + st.moved_dst.length + 2 =
        (st.fs.length + st.moved_dst.length + 1) + 1 := rfl
    rw [rename, hfe, renameFuel]
    rw [if_pos h1, if_neg (by simp)]
    rw [unique_name_second_free sep st dst h2 h3]
    dsimp only
    rw [renameFuel_free false sep st old _
      (fun hc => h3 (List.mem_append.mpr (Or.inl hc)))
      (fun hc => h3 (List.mem_append.mpr (Or.inr hc)))]
    refine ⟨rfl, ?_⟩
    simp

/-- C8 (witness): with `X.mkv` on disk, a default space separator and an
empty run history, the resolved destination is the suffix-2 candidate. -/
theorem collision_numbering_witness :
    (rename false " " { fs := ["X.mkv"] } "/dl/a.mkv" "X.mkv").2 =
      "X (2).mkv" := by
  have h := (collision_numbering.1 " " { fs := ["X.mkv"] } "/dl/a.mkv" "X.mkv"
    (by decide) (by decide)).1
  simpa using h

/-- C5 (witness): the general multi-episode theorem instantiated at episodes
1, 2, 3 with separator `-` in range mode. -/
theorem multi_episode_formatting_witness :
    lookupKey (add_series_mapping
      { lower_words := [], upper_words := [],
        multiple_episodes := "range", episode_separator := "-" }
      { episode := some (Sum.inr [1, 2, 3]) } []) "%e" =
      some (pyStr 1 ++ "-" ++ pyStr (([2, 3] : List Nat).getLast?.getD 1)) :=
  ((multi_episode_formatting.1 _ _ 1 [2, 3] rfl).1 rfl).1

end DeobSort
